import Mathlib

/-!
Verification of the quaternion library in `src/lib.rs` (crate `quaternion`).

The library is generic over a floating-point-like type `T`; we embed it over
the real numbers `ℝ`, so "up to floating-point tolerance" in the spec becomes
exact equality.  The crate type `Quaternion<T> = (T, [T; 3])` becomes the
structure `Quat` with scalar part `w` and vector part `v : Vec3`.

The crate calls a handful of helpers from the external `vecmath` crate
(`vec3_add`, `vec3_scale`, `vec3_dot`, `vec3_cross`, `vec3_square_len`,
`vec3_normalized`); these are embedded here from vecmath's standard
definitions (`vec3_normalized a = vec3_scale a (1 / sqrt (square_len a))`).
-/

noncomputable section

/-- A 3-vector `[T; 3]`, embedded with named components. -/
@[ext]
structure Vec3 where
  x : ℝ
  y : ℝ
  z : ℝ

/-- The quaternion type `(T, [T; 3])`: scalar part `w`, vector part `v`. -/
@[ext]
structure Quat where
  w : ℝ
  v : Vec3

/-- vecmath `vec3_add`: componentwise sum. -/
def vec3_add (a b : Vec3) : Vec3 :=
  ⟨a.x + b.x, a.y + b.y, a.z + b.z⟩

/-- vecmath `vec3_scale`: componentwise multiplication by a scalar. -/
def vec3_scale (a : Vec3) (t : ℝ) : Vec3 :=
  ⟨a.x * t, a.y * t, a.z * t⟩

/-- vecmath `vec3_dot`: Euclidean dot product. -/
def vec3_dot (a b : Vec3) : ℝ :=
  a.x * b.x + a.y * b.y + a.z * b.z

/-- vecmath `vec3_cross`: the 3D cross product. -/
def vec3_cross (a b : Vec3) : Vec3 :=
  ⟨a.y * b.z - a.z * b.y, a.z * b.x - a.x * b.z, a.x * b.y - a.y * b.x⟩

/-- vecmath `vec3_square_len`: squared Euclidean length. -/
def vec3_square_len (a : Vec3) : ℝ :=
  vec3_dot a a

/-- vecmath `vec3_len`: Euclidean length. -/
def vec3_len (a : Vec3) : ℝ :=
  Real.sqrt (vec3_square_len a)

/-- vecmath `vec3_normalized`: `vec3_scale a (1 / vec3_len a)`. -/
def vec3_normalized (a : Vec3) : Vec3 :=
  vec3_scale a (1 / vec3_len a)

namespace Quat

/-- `id()` from lib.rs lines 20-26: the quaternion `(1, [0, 0, 0])`. -/
def id : Quat :=
  ⟨1, ⟨0, 0, 0⟩⟩

/-- `add` from lib.rs lines 30-39: componentwise sum. -/
def add (a b : Quat) : Quat :=
  ⟨a.w + b.w, ⟨a.v.x + b.v.x, a.v.y + b.v.y, a.v.z + b.v.z⟩⟩

/-- `scale` from lib.rs lines 43-47: elementwise scaling by `t`. -/
def scale (q : Quat) (t : ℝ) : Quat :=
  ⟨q.w * t, ⟨q.v.x * t, q.v.y * t, q.v.z * t⟩⟩

/-- `dot` from lib.rs lines 51-56: 4-vector dot product (the vector total is
summed first, then added to the product of the scalar parts). -/
def dot (a b : Quat) : ℝ :=
  a.w * b.w + (a.v.x * b.v.x + a.v.y * b.v.y + a.v.z * b.v.z)

/-- `mul` from lib.rs lines 60-69: the Hamilton product, written out
component by component exactly as in the source. -/
def mul (a b : Quat) : Quat :=
  ⟨a.w * b.w - a.v.x * b.v.x - a.v.y * b.v.y - a.v.z * b.v.z,
   ⟨a.w * b.v.x + a.v.x * b.w + a.v.y * b.v.z - a.v.z * b.v.y,
    a.w * b.v.y - a.v.x * b.v.z + a.v.y * b.w + a.v.z * b.v.x,
    a.w * b.v.z + a.v.x * b.v.y - a.v.y * b.v.x + a.v.z * b.w⟩⟩

/-- `conj` from lib.rs lines 73-77: negate the vector part. -/
def conj (a : Quat) : Quat :=
  ⟨a.w, ⟨-a.v.x, -a.v.y, -a.v.z⟩⟩

/-- `square_len` from lib.rs lines 81-85. -/
def square_len (q : Quat) : ℝ :=
  q.w * q.w + q.v.x * q.v.x + q.v.y * q.v.y + q.v.z * q.v.z

/-- `len` from lib.rs lines 89-93. -/
def len (q : Quat) : ℝ :=
  Real.sqrt (square_len q)

/-- `rotate_vector` from lib.rs lines 97-104: embed `v` as the pure
quaternion `(0, v)`, compute `mul(mul(q, v_as_q), conj(q))`, return the
vector part. -/
def rotate_vector (q : Quat) (v : Vec3) : Vec3 :=
  (mul (mul q ⟨0, v⟩) (conj q)).v

/-- `axis_angle` from lib.rs lines 108-116: `two = one + one`,
`half_theta = theta / two`, result `(cos half_theta, v * sin half_theta)`. -/
def axis_angle (v : Vec3) (theta : ℝ) : Quat :=
  ⟨Real.cos (theta / (1 + 1)), vec3_scale v (Real.sin (theta / (1 + 1)))⟩

/-- `rotation_from_to` from lib.rs lines 121-153, with the source's `let`
bindings for the normalized inputs, their dot product and the fallback axis
inlined. -/
def rotation_from_to (a b : Vec3) : Quat :=
  if 1 ≤ vec3_dot (vec3_normalized a) (vec3_normalized b) then
    id
  else if vec3_dot (vec3_normalized a) (vec3_normalized b) < -0.999999 then
    axis_angle
      (vec3_normalized
        (if vec3_square_len (vec3_cross ⟨1, 0, 0⟩ (vec3_normalized a)) = 0 then
          vec3_cross ⟨0, 1, 0⟩ (vec3_normalized a)
        else
          vec3_cross ⟨1, 0, 0⟩ (vec3_normalized a)))
      Real.pi
  else
    scale
      ⟨1 + vec3_dot (vec3_normalized a) (vec3_normalized b),
       vec3_cross (vec3_normalized a) (vec3_normalized b)⟩
      (1 / len
        ⟨1 + vec3_dot (vec3_normalized a) (vec3_normalized b),
         vec3_cross (vec3_normalized a) (vec3_normalized b)⟩)

end Quat

/-! ## Shared helper lemmas -/

/-- The product of a quaternion with its conjugate is `(square_len q, 0)`. -/
theorem mul_conj_self (q : Quat) :
    Quat.mul q (Quat.conj q) = ⟨Quat.square_len q, ⟨0, 0, 0⟩⟩ := by
  ext <;> simp [Quat.mul, Quat.conj, Quat.square_len] <;> ring

/-- The sandwich `q (0,v) q̄` scales the squared vector length by
`square_len q` squared. -/
theorem square_len_rotate (q : Quat) (v : Vec3) :
    vec3_square_len (Quat.rotate_vector q v) =
      Quat.square_len q * Quat.square_len q * vec3_square_len v := by
  simp only [Quat.rotate_vector, Quat.mul, Quat.conj, Quat.square_len,
    vec3_square_len, vec3_dot]
  ring

/-- The squared vector length is nonnegative. -/
theorem vec3_square_len_nonneg (a : Vec3) : 0 ≤ vec3_square_len a := by
  simp only [vec3_square_len, vec3_dot]
  nlinarith [mul_self_nonneg a.x, mul_self_nonneg a.y, mul_self_nonneg a.z]

/-- A vector with zero squared length is the zero vector. -/
theorem vec3_eq_zero_of_square_len_eq_zero (a : Vec3)
    (h : vec3_square_len a = 0) : a = ⟨0, 0, 0⟩ := by
  simp only [vec3_square_len, vec3_dot] at h
  have hx : a.x = 0 := by nlinarith [sq_nonneg a.x, sq_nonneg a.y, sq_nonneg a.z]
  have hy : a.y = 0 := by nlinarith [sq_nonneg a.x, sq_nonneg a.y, sq_nonneg a.z]
  have hz : a.z = 0 := by nlinarith [sq_nonneg a.x, sq_nonneg a.y, sq_nonneg a.z]
  ext <;> assumption

/-- A nonzero vector has positive squared length. -/
theorem vec3_square_len_pos (a : Vec3) (h : a ≠ ⟨0, 0, 0⟩) :
    0 < vec3_square_len a := by
  rcases (vec3_square_len_nonneg a).lt_or_eq with hp | hz
  · exact hp
  · exact absurd (vec3_eq_zero_of_square_len_eq_zero a hz.symm) h

/-- Normalizing a vector of positive squared length yields a unit vector. -/
theorem square_len_normalized (a : Vec3) (h : 0 < vec3_square_len a) :
    vec3_square_len (vec3_normalized a) = 1 := by
  have hs : vec3_square_len a = a.x * a.x + a.y * a.y + a.z * a.z := rfl
  have ht : Real.sqrt (vec3_square_len a) ≠ 0 := (Real.sqrt_pos.mpr h).ne'
  have ht2 : Real.sqrt (vec3_square_len a) * Real.sqrt (vec3_square_len a) =
      vec3_square_len a := Real.mul_self_sqrt h.le
  simp only [vec3_normalized, vec3_scale, vec3_len, vec3_square_len, vec3_dot]
  simp only [vec3_square_len, vec3_dot] at ht ht2
  field_simp
  linarith [ht2]

/-! ## Claims -/

/-- C1: `mul` implements the Hamilton product: the scalar part of
`mul a b` is `a.w * b.w - a.v ⬝ b.v` and the vector part is
`a.w * b.v + b.w * a.v + a.v × b.v`, component for component. -/
theorem mul_is_hamilton_product (a b : Quat) :
    (Quat.mul a b).w = a.w * b.w - vec3_dot a.v b.v ∧
    (Quat.mul a b).v =
      vec3_add (vec3_add (vec3_scale b.v a.w) (vec3_scale a.v b.w))
        (vec3_cross a.v b.v) := by
  constructor
  · simp only [Quat.mul, vec3_dot]
    ring
  · ext <;> simp only [Quat.mul, vec3_add, vec3_scale, vec3_cross] <;> ring

/-- C7: `square_len q = dot q q` for every quaternion `q` (the two sides
only differ by the association order of the four products). -/
theorem square_len_eq_dot (q : Quat) : Quat.square_len q = Quat.dot q q := by
  simp only [Quat.square_len, Quat.dot]
  ring

/-- C8: `id()` is a two-sided multiplicative identity for `mul`, but not an
additive identity for `add`. -/
theorem id_mul_identity_not_add_identity :
    (∀ q : Quat, Quat.mul Quat.id q = q ∧ Quat.mul q Quat.id = q) ∧
    (∃ q : Quat, Quat.add Quat.id q ≠ q) := by
  refine ⟨fun q => ⟨?_, ?_⟩, ⟨Quat.id, ?_⟩⟩
  · ext <;> simp [Quat.mul, Quat.id]
  · ext <;> simp [Quat.mul, Quat.id]
  · intro h
    have hw : (Quat.add Quat.id Quat.id).w = (Quat.id).w := by rw [h]
    simp [Quat.add, Quat.id] at hw

/-- C9: for every quaternion `q` (unit or not), `mul q (conj q)` is exactly
`(square_len q, [0, 0, 0])`. -/
theorem mul_conj_eq_square_len (q : Quat) :
    Quat.mul q (Quat.conj q) = ⟨Quat.square_len q, ⟨0, 0, 0⟩⟩ :=
  mul_conj_self q

/-- C10: for every quaternion `q` and vector `v`, the scalar part of
`mul (mul q (0, v)) (conj q)` — the component `rotate_vector` discards —
is exactly zero. -/
theorem rotate_scalar_part_zero (q : Quat) (v : Vec3) :
    (Quat.mul (Quat.mul q ⟨0, v⟩) (Quat.conj q)).w = 0 := by
  simp only [Quat.mul, Quat.conj]
  ring

/-- C6: `axis_angle axis theta` has scalar part `cos (theta / 2)` and vector
part `axis` scaled componentwise by `sin (theta / 2)`. -/
theorem axis_angle_formula (axis : Vec3) (theta : ℝ) :
    (Quat.axis_angle axis theta).w = Real.cos (theta / 2) ∧
    (Quat.axis_angle axis theta).v.x = axis.x * Real.sin (theta / 2) ∧
    (Quat.axis_angle axis theta).v.y = axis.y * Real.sin (theta / 2) ∧
    (Quat.axis_angle axis theta).v.z = axis.z * Real.sin (theta / 2) := by
  simp only [Quat.axis_angle, vec3_scale]
  norm_num

/-- C3: the conjugate is the inverse on unit quaternions:
`square_len q = 1` implies `mul q (conj q) = id`. -/
theorem mul_conj_of_unit (q : Quat) (h : Quat.square_len q = 1) :
    Quat.mul q (Quat.conj q) = Quat.id := by
  rw [mul_conj_self q, h]
  rfl

/-- Witness for C3 at the concrete unit quaternion `(1, [0, 0, 0])`. -/
theorem mul_conj_of_unit_witness :
    Quat.square_len ⟨1, ⟨0, 0, 0⟩⟩ = 1 ∧
    Quat.mul ⟨1, ⟨0, 0, 0⟩⟩ (Quat.conj ⟨1, ⟨0, 0, 0⟩⟩) = Quat.id :=
  ⟨by simp [Quat.square_len], mul_conj_of_unit ⟨1, ⟨0, 0, 0⟩⟩ (by simp [Quat.square_len])⟩

/-- C2: rotating by a unit quaternion preserves the Euclidean length of the
vector: `square_len q = 1` implies `vec3_len (rotate_vector q v) = vec3_len v`. -/
theorem rotate_vector_preserves_len (q : Quat) (v : Vec3)
    (h : Quat.square_len q = 1) :
    vec3_len (Quat.rotate_vector q v) = vec3_len v := by
  simp only [vec3_len]
  rw [square_len_rotate q v, h]
  norm_num

/-- Witness for C2 at `q = (1, [0, 0, 0])` and `v = [1, 2, 3]`. -/
theorem rotate_vector_preserves_len_witness :
    Quat.square_len ⟨1, ⟨0, 0, 0⟩⟩ = 1 ∧
    vec3_len (Quat.rotate_vector ⟨1, ⟨0, 0, 0⟩⟩ ⟨1, 2, 3⟩) = vec3_len ⟨1, 2, 3⟩ :=
  ⟨by simp [Quat.square_len],
   rotate_vector_preserves_len ⟨1, ⟨0, 0, 0⟩⟩ ⟨1, 2, 3⟩ (by simp [Quat.square_len])⟩

/-- C5: whenever the dot product of the normalized inputs is at least 1,
`rotation_from_to` returns `id`; in particular `rotation_from_to a a = id`
for every nonzero `a`. -/
theorem rotation_from_to_parallel :
    (∀ a b : Vec3, 1 ≤ vec3_dot (vec3_normalized a) (vec3_normalized b) →
      Quat.rotation_from_to a b = Quat.id) ∧
    (∀ a : Vec3, a ≠ ⟨0, 0, 0⟩ → Quat.rotation_from_to a a = Quat.id) := by
  have hpar : ∀ a b : Vec3,
      1 ≤ vec3_dot (vec3_normalized a) (vec3_normalized b) →
      Quat.rotation_from_to a b = Quat.id := by
    intro a b h
    simp only [Quat.rotation_from_to]
    rw [if_pos h]
  refine ⟨hpar, fun a ha => hpar a a ?_⟩
  have h1 : vec3_square_len (vec3_normalized a) = 1 :=
    square_len_normalized a (vec3_square_len_pos a ha)
  simp only [vec3_square_len] at h1
  exact h1.ge

/-- Witness for C5: both branches of the claim at concrete inputs. -/
theorem rotation_from_to_parallel_witness :
    Quat.rotation_from_to ⟨1, 0, 0⟩ ⟨1, 0, 0⟩ = Quat.id ∧
    Quat.rotation_from_to ⟨2, 0, 0⟩ ⟨2, 0, 0⟩ = Quat.id := by
  constructor
  · exact rotation_from_to_parallel.1 ⟨1, 0, 0⟩ ⟨1, 0, 0⟩ (by
      norm_num [vec3_normalized, vec3_scale, vec3_len, vec3_square_len,
        vec3_dot, Real.sqrt_one])
  · refine rotation_from_to_parallel.2 ⟨2, 0, 0⟩ ?_
    intro h
    exact absurd (congrArg Vec3.x h) (by norm_num)

/-- C4: in the antiparallel branch (`d < -0.999999`, not `d ≥ 1`),
`rotation_from_to a b` is `axis_angle axis π` where `axis` normalizes the
cross product of the world X axis with the normalized `a`, falling back to
the world Y axis when that cross product has zero square length; the
resulting axis is a unit vector orthogonal to `a`. -/
theorem rotation_from_to_antiparallel (a b : Vec3)
    (h1 : ¬ 1 ≤ vec3_dot (vec3_normalized a) (vec3_normalized b))
    (h2 : vec3_dot (vec3_normalized a) (vec3_normalized b) < -0.999999) :
    Quat.rotation_from_to a b =
      Quat.axis_angle
        (vec3_normalized
          (if vec3_square_len (vec3_cross ⟨1, 0, 0⟩ (vec3_normalized a)) = 0 then
            vec3_cross ⟨0, 1, 0⟩ (vec3_normalized a)
          else
            vec3_cross ⟨1, 0, 0⟩ (vec3_normalized a))) Real.pi ∧
    vec3_square_len
      (vec3_normalized
        (if vec3_square_len (vec3_cross ⟨1, 0, 0⟩ (vec3_normalized a)) = 0 then
          vec3_cross ⟨0, 1, 0⟩ (vec3_normalized a)
        else
          vec3_cross ⟨1, 0, 0⟩ (vec3_normalized a))) = 1 ∧
    vec3_dot
      (vec3_normalized
        (if vec3_square_len (vec3_cross ⟨1, 0, 0⟩ (vec3_normalized a)) = 0 then
          vec3_cross ⟨0, 1, 0⟩ (vec3_normalized a)
        else
          vec3_cross ⟨1, 0, 0⟩ (vec3_normalized a))) a = 0 := by
  have ha1 : vec3_normalized a ≠ ⟨0, 0, 0⟩ := by
    intro h0
    rw [h0] at h2
    simp only [vec3_dot] at h2
    norm_num at h2
  refine ⟨?_, ?_, ?_⟩
  · simp only [Quat.rotation_from_to]
    rw [if_neg h1, if_pos h2]
  · apply square_len_normalized
    by_cases hc : vec3_square_len (vec3_cross ⟨1, 0, 0⟩ (vec3_normalized a)) = 0
    · rw [if_pos hc]
      have h0 : vec3_cross ⟨1, 0, 0⟩ (vec3_normalized a) = ⟨0, 0, 0⟩ :=
        vec3_eq_zero_of_square_len_eq_zero _ hc
      have hy : (vec3_normalized a).y = 0 := by
        have hz0 := congrArg Vec3.z h0
        simp [vec3_cross] at hz0
        exact hz0
      have hz : (vec3_normalized a).z = 0 := by
        have hy0 := congrArg Vec3.y h0
        simp [vec3_cross] at hy0
        exact hy0
      have hx : (vec3_normalized a).x ≠ 0 := by
        intro h0x
        exact ha1 (by ext <;> assumption)
      have hxx : 0 < (vec3_normalized a).x * (vec3_normalized a).x :=
        mul_self_pos.mpr hx
      simp only [vec3_square_len, vec3_dot, vec3_cross]
      nlinarith [mul_self_nonneg (vec3_normalized a).z, hxx]
    · rw [if_neg hc]
      exact lt_of_le_of_ne (vec3_square_len_nonneg _) (Ne.symm hc)
  · by_cases hc : vec3_square_len (vec3_cross ⟨1, 0, 0⟩ (vec3_normalized a)) = 0
    · rw [if_pos hc]
      simp only [vec3_normalized, vec3_scale, vec3_len, vec3_dot, vec3_cross]
      ring
    · rw [if_neg hc]
      simp only [vec3_normalized, vec3_scale, vec3_len, vec3_dot, vec3_cross]
      ring

/-- Witness for C4 at `a = [1,0,0]`, `b = [-1,0,0]`: this input takes the
degenerate X-cross path and falls back to the Y axis, producing a half-turn
about `[0,0,-1]`. -/
theorem rotation_from_to_antiparallel_witness :
    Quat.rotation_from_to ⟨1, 0, 0⟩ ⟨-1, 0, 0⟩ =
      Quat.axis_angle ⟨0, 0, -1⟩ Real.pi := by
  have h := rotation_from_to_antiparallel ⟨1, 0, 0⟩ ⟨-1, 0, 0⟩
    (by norm_num [vec3_normalized, vec3_scale, vec3_len, vec3_square_len,
      vec3_dot, Real.sqrt_one])
    (by norm_num [vec3_normalized, vec3_scale, vec3_len, vec3_square_len,
      vec3_dot, Real.sqrt_one])
  rw [h.1]
  congr 1
  norm_num [vec3_normalized, vec3_scale, vec3_len, vec3_square_len,
    vec3_dot, vec3_cross, Real.sqrt_one]
